import Mathlib

/-!
Verification of the gmat linear-algebra layer (src/include/gabp/matrix.hh).

The C++ library exposes an abstract `matrix<T, m, n>` capability with two
virtual operations, `get(i, j)` and `set(i, j, v)`, realized by a dense
owning `basematrix` and by a non-owning wraparound view `submatrix`, plus
free algorithms (`matmul`, `matadd`, `operator==`, `cmppred`, `det`,
`inverse`) written only against the capability.

The shallow embedding models a capability instance as a pair of functions
over an abstract store `σ`: `get : σ → Nat → Nat → T` and
`set : σ → Nat → Nat → T → σ`.  A dense matrix is an instance whose store
is the raw element map `Nat → Nat → T`; a view is an instance that remaps
indices modulo the parent extents, exactly as the source does.  The C++
`for` loops become left folds over `List.range`, preserving iteration
order and the threading of mutable state, so that aliasing between the
argument matrices of an algorithm is represented faithfully.
-/

namespace gmat

/-- Raw dense storage of a `basematrix`: the element map underlying the
row-major buffer `m_elements`.  Indices beyond the extents are unreachable
under the source's precondition `i < m ∧ j < n`. -/
abbrev buf (T : Type) := Nat → Nat → T

/-- The abstract `matrix<T, m, n>` capability: virtual `get`/`set` acting on
a store of type `σ`.  The compile-time extents `m`, `n` of the C++ template
are phantom for these two operations and are passed to the algorithms
explicitly. -/
structure matrix (T : Type) (σ : Type) where
  get : σ → Nat → Nat → T
  set : σ → Nat → Nat → T → σ

/-- Pointwise update of a dense store: the effect of `m_elements[i][j] = v`. -/
def upd {T : Type} (d : buf T) (i j : Nat) (v : T) : buf T :=
  fun a b => if a = i ∧ b = j then v else d a b

/-- The dense `basematrix`: `get`/`set` are direct array indexing
(`return m_elements[i][j]` and `return m_elements[i][j] = value`). -/
def basematrix (T : Type) : matrix T (buf T) where
  get := fun d i j => d i j
  set := fun d i j v => upd d i j v

/-- The `submatrix` view over a parent capability `p` whose extents are
`M × N`, with offset `(oi, oj)`: `get`/`set` delegate to the parent at
`((i + oi) % M, (j + oj) % N)`. -/
def submatrix {T σ : Type} (p : matrix T σ) (M N oi oj : Nat) : matrix T σ where
  get := fun s i j => p.get s ((i + oi) % M) ((j + oj) % N)
  set := fun s i j v => p.set s ((i + oi) % M) ((j + oj) % N) v

/-- Runs a capability over the first component of a product store, leaving
the second component untouched.  Used to place distinct C++ objects in one
combined store. -/
def liftFst {T σ τ : Type} (c : matrix T σ) : matrix T (σ × τ) where
  get := fun s i j => c.get s.1 i j
  set := fun s i j v => (c.set s.1 i j v, s.2)

/-- Runs a capability over the second component of a product store. -/
def liftSnd {T σ τ : Type} (c : matrix T τ) : matrix T (σ × τ) where
  get := fun s i j => c.get s.2 i j
  set := fun s i j v => (s.1, c.set s.2 i j v)

/-- The inner accumulator loop of `matmul`:
`T a = 0; for (k = 0; k < n; ++k) a += left.get(i, k) * right.get(k, j);`.
The loop only reads, so it is a pure function of the current store. -/
def csum {T σ : Type} [Zero T] [Add T] [Mul T]
    (left right : matrix T σ) (s : σ) (i j : Nat) : Nat → T
  | 0 => 0
  | k + 1 => csum left right s i j k + left.get s i k * right.get s k j

/-- `matmul(left, right, dest)` on `m×n` times `n×o` extents: for each cell
`(i, j)` the zero-initialized accumulator is filled by `csum` at the current
store and written by `dest.set(i, j, a)`. -/
def matmul {T σ : Type} [Zero T] [Add T] [Mul T]
    (left right dest : matrix T σ) (m n o : Nat) (s : σ) : σ :=
  (List.range m).foldl
    (fun s i =>
      (List.range o).foldl
        (fun s j => dest.set s i j (csum left right s i j n)) s)
    s

/-- `matadd(left, right, dest)` on `m×n` extents:
`dest.set(i, j, left.get(i, j) + right.get(i, j))` over the double loop. -/
def matadd {T σ : Type} [Add T]
    (left right dest : matrix T σ) (m n : Nat) (s : σ) : σ :=
  (List.range m).foldl
    (fun s i =>
      (List.range n).foldl
        (fun s j => dest.set s i j (left.get s i j + right.get s i j)) s)
    s

/-- `operator==`: the double loop returning `false` at the first cell where
`this->get(i, j) != right.get(i, j)`, and `true` if none differs.  The loop
only reads, so the short-circuiting scan is `List.all`. -/
def matrixEq {T σ : Type} [DecidableEq T]
    (a b : matrix T σ) (m n : Nat) (s : σ) : Bool :=
  (List.range m).all fun i =>
    (List.range n).all fun j => decide (a.get s i j = b.get s i j)

/-- `cmppred`: like `operator==` but testing `pred(this->get(i, j),
right.get(i, j))` at every cell. -/
def cmppred {T σ : Type}
    (a b : matrix T σ) (pred : T → T → Bool) (m n : Nat) (s : σ) : Bool :=
  (List.range m).all fun i =>
    (List.range n).all fun j => pred (a.get s i j) (b.get s i j)

/-- `det`: the `n = 1` overload returns `mat->get(0, 0)`; the general
template loops `j` over `0..n`, builds the wraparound view
`submatrix<T, n-1, n-1, n, n>(mat, 1, j + 1)`, recurses on it, and
accumulates `acc ± mat->get(0, j) * sd` with the alternating `plus` flag
starting `true`.  The `n = 0` case is the general template's empty loop
(returns the initial accumulator `0`); it is unreachable from `n ≥ 1`. -/
def det {T σ : Type} [Zero T] [Add T] [Sub T] [Mul T] :
    Nat → matrix T σ → σ → T
  | 0, _, _ => 0
  | 1, mat, s => mat.get s 0 0
  | n + 2, mat, s =>
    (((List.range (n + 2)).foldl
      (fun acp j =>
        let sd := det (n + 1) (submatrix mat (n + 2) (n + 2) 1 (j + 1)) s
        (if acp.2 then acp.1 + mat.get s 0 j * sd
         else acp.1 - mat.get s 0 j * sd, !acp.2))
      ((0 : T), true))).1

/-- `inverse(src, dest)`: the source body is the single statement
`return false;` — no read or write of either argument, so the store is
returned unchanged alongside the boolean. -/
def inverse {T σ : Type} (src dest : matrix T σ) (n : Nat) (s : σ) :
    Bool × σ :=
  (false, s)

/-- The double write loop shared by the tabulating constructors: writes
`g i j` into cell `(i, j)` of a dense store for all `i < m`, `j < n`, in
row-major order. -/
def tab2 {T : Type} (g : Nat → Nat → T) (m n : Nat) (d : buf T) : buf T :=
  (List.range m).foldl
    (fun d i => (List.range n).foldl (fun d j => upd d i j (g i j)) d) d

/-- The `basematrix(const submatrix&)` constructor: the double loop
`m_elements[i][j] = other.get(i, j)` over `i < m`, `j < n`, starting from
the uninitialized buffer `d`. -/
def basematrixOfSub {T σ : Type}
    (other : matrix T σ) (s : σ) (m n : Nat) (d : buf T) : buf T :=
  tab2 (fun i j => other.get s i j) m n d

/-- A matrix of natural-number-indexed entries, reading the dense store on
the square `Fin n × Fin n`; the mathematical determinant of the stored
matrix is `(toSquare d n).det`. -/
def toSquare (d : buf ℤ) (n : Nat) : Matrix (Fin n) (Fin n) ℤ :=
  Matrix.of fun i j => d i.val j.val

/-- Dense store of the 3×3 integer matrix `[[0,1,0],[1,0,0],[0,0,1]]`
(the identity with its first two rows swapped; its determinant is `-1`). -/
def exA : buf ℤ := fun i j =>
  if i = 0 ∧ j = 1 then 1
  else if i = 1 ∧ j = 0 then 1
  else if i = 2 ∧ j = 2 then 1 else 0

/-- Dense store whose `(i, j)` entry is `2 * i + j + 1`. -/
def exd : buf ℤ := fun i j => 2 * (i : ℤ) + (j : ℤ) + 1

/-- Dense store filled with zeros. -/
def exz : buf ℤ := fun _ _ => 0

/-- Dense store holding `5` at `(1, 1)` and `9` elsewhere; the cell `(1, 1)`
is what a wraparound view with offset `(1, 1)` over 2×2 extents exposes at
its own index `(0, 0)`. -/
def exP : buf ℤ := fun i j => if i = 1 ∧ j = 1 then 5 else 9

/-- Dense store filled with fives. -/
def exFive : buf ℤ := fun _ _ => 5

/-- A run of `matmul` on three distinct dense integer matrices: `a` and `b`
live in the read-only components of the store, the destination starts as
`d`; the value is the destination's final contents.  This is the shape of
the `operator*` convenience wrapper, which allocates a fresh destination
and calls `matmul`. -/
def mulRun (a b d : buf ℤ) (m n o : Nat) : buf ℤ :=
  (matmul (liftFst (liftFst (basematrix ℤ))) (liftFst (liftSnd (basematrix ℤ)))
    (liftSnd (basematrix ℤ)) m n o ((a, b), d)).2

section lemmas

variable {T σ : Type}

theorem upd_same (d : buf T) (i j : Nat) (v : T) : upd d i j v i j = v := by
  simp [upd]

theorem upd_other (d : buf T) (i j : Nat) (v : T) (a b : Nat)
    (h : ¬(a = i ∧ b = j)) : upd d i j v a b = d a b := by
  simp [upd, h]

theorem foldl_congr_mem {α β : Type} :
    ∀ (l : List α) (f g : β → α → β) (b : β),
      (∀ x a, a ∈ l → f x a = g x a) → l.foldl f b = l.foldl g b := by
  intro l
  induction l with
  | nil => intro f g b _; rfl
  | cons a t ih =>
    intro f g b h
    simp only [List.foldl_cons]
    rw [h b a (by simp)]
    exact ih f g (g b a) fun x a' ha' => h x a' (by simp [ha'])

theorem tab2_row {g : Nat → Nat → T} (i : Nat) :
    ∀ (l : List Nat) (d : buf T) (a b : Nat),
      (l.foldl (fun d j => upd d i j (g i j)) d) a b =
        if a = i ∧ b ∈ l then g a b else d a b := by
  intro l
  induction l with
  | nil => intro d a b; simp
  | cons j₀ t ih =>
    intro d a b
    simp only [List.foldl_cons]
    rw [ih]
    by_cases hmem : a = i ∧ b ∈ j₀ :: t
    · rcases hmem with ⟨rfl, hb⟩
      rcases List.mem_cons.mp hb with hb | hb
      · subst hb
        by_cases hbt : b ∈ t
        · simp [hbt]
        · simp [hbt, upd]
      · simp [hb, List.mem_cons.mpr (Or.inr hb)]
    · have h1 : ¬(a = i ∧ b ∈ t) := fun ⟨ha, hb⟩ =>
        hmem ⟨ha, List.mem_cons.mpr (Or.inr hb)⟩
      have h2 : ¬(a = i ∧ b = j₀) := fun ⟨ha, hb⟩ =>
        hmem ⟨ha, List.mem_cons.mpr (Or.inl hb)⟩
      rw [if_neg h1, if_neg hmem, upd_other _ _ _ _ _ _ h2]

theorem tab2_apply_list {g : Nat → Nat → T} (n : Nat) :
    ∀ (rl : List Nat) (d : buf T) (a b : Nat),
      (rl.foldl
        (fun d i => (List.range n).foldl (fun d j => upd d i j (g i j)) d)
        d) a b =
        if a ∈ rl ∧ b < n then g a b else d a b := by
  intro rl
  induction rl with
  | nil => intro d a b; simp
  | cons i₀ t ih =>
    intro d a b
    simp only [List.foldl_cons]
    rw [ih]
    by_cases hmem : a ∈ i₀ :: t ∧ b < n
    · rcases hmem with ⟨ha, hb⟩
      rcases List.mem_cons.mp ha with ha | ha
      · subst ha
        by_cases hat : a ∈ t
        · simp [hat, hb]
        · rw [if_neg (fun h => hat h.1), tab2_row,
            if_pos ⟨rfl, List.mem_range.mpr hb⟩,
            if_pos ⟨List.mem_cons_self a t, hb⟩]
      · simp [ha, hb, List.mem_cons.mpr (Or.inr ha)]
    · have h1 : ¬(a ∈ t ∧ b < n) := fun ⟨ha, hb⟩ =>
        hmem ⟨List.mem_cons.mpr (Or.inr ha), hb⟩
      have h2 : ¬(a ∈ i₀ :: t ∧ b < n) := hmem
      rw [if_neg h1, if_neg h2, tab2_row]
      have h3 : ¬(a = i₀ ∧ b ∈ List.range n) := fun ⟨ha, hb⟩ =>
        hmem ⟨List.mem_cons.mpr (Or.inl ha), List.mem_range.mp hb⟩
      rw [if_neg h3]

theorem tab2_apply (g : Nat → Nat → T) (m n : Nat) (d : buf T) (a b : Nat) :
    tab2 g m n d a b = if a < m ∧ b < n then g a b else d a b := by
  rw [tab2, tab2_apply_list]
  by_cases h : a < m ∧ b < n
  · rw [if_pos h, if_pos ⟨List.mem_range.mpr h.1, h.2⟩]
  · rw [if_neg h, if_neg (fun hc => h ⟨List.mem_range.mp hc.1, hc.2⟩)]

theorem tab2_in (g : Nat → Nat → T) (m n : Nat) (d : buf T) {a b : Nat}
    (ha : a < m) (hb : b < n) : tab2 g m n d a b = g a b := by
  rw [tab2_apply, if_pos ⟨ha, hb⟩]

theorem csum_liftFst {τ : Type} [Zero T] [Add T] [Mul T]
    (L R : matrix T σ) (p : σ × τ) (i j : Nat) :
    ∀ k, csum (liftFst L) (liftFst R) p i j k = csum L R p.1 i j k := by
  intro k
  induction k with
  | zero => rfl
  | succ k ih => rw [csum, csum, ih]; rfl

theorem matmul_inner_split [Zero T] [Add T] [Mul T]
    (L R : matrix T σ) (n i : Nat) :
    ∀ (l : List Nat) (s : σ) (d : buf T),
      l.foldl
        (fun st j => (liftSnd (basematrix T)).set st i j
          (csum (liftFst L) (liftFst R) st i j n)) (s, d) =
      (s, l.foldl (fun d j => upd d i j (csum L R s i j n)) d) := by
  intro l
  induction l with
  | nil => intro s d; rfl
  | cons j₀ t ih =>
    intro s d
    simp only [List.foldl_cons]
    rw [show (liftSnd (basematrix T)).set (s, d) i j₀
          (csum (liftFst L) (liftFst R) (s, d) i j₀ n) =
        (s, upd d i j₀ (csum L R s i j₀ n)) from by
      rw [csum_liftFst]; rfl]
    exact ih s _

theorem matmul_outer_split [Zero T] [Add T] [Mul T]
    (L R : matrix T σ) (n o : Nat) :
    ∀ (rl : List Nat) (s : σ) (d : buf T),
      rl.foldl
        (fun st i => (List.range o).foldl
          (fun st j => (liftSnd (basematrix T)).set st i j
            (csum (liftFst L) (liftFst R) st i j n)) st) (s, d) =
      (s, rl.foldl
        (fun d i => (List.range o).foldl
          (fun d j => upd d i j (csum L R s i j n)) d) d) := by
  intro rl
  induction rl with
  | nil => intro s d; rfl
  | cons i₀ t ih =>
    intro s d
    simp only [List.foldl_cons]
    rw [matmul_inner_split]
    exact ih s _

theorem matmul_split [Zero T] [Add T] [Mul T]
    (L R : matrix T σ) (m n o : Nat) (s : σ) (d : buf T) :
    matmul (liftFst L) (liftFst R) (liftSnd (basematrix T)) m n o (s, d) =
      (s, tab2 (fun i j => csum L R s i j n) m o d) := by
  rw [matmul, tab2]
  exact matmul_outer_split L R n o (List.range m) s d

theorem csum_eq_sum {T σ : Type} [NonUnitalNonAssocSemiring T]
    (L R : matrix T σ) (s : σ) (i j : Nat) :
    ∀ n, csum L R s i j n =
      ∑ k ∈ Finset.range n, L.get s i k * R.get s k j := by
  intro n
  induction n with
  | zero => simp [csum]
  | succ n ih => rw [csum, ih, Finset.sum_range_succ]

theorem matadd_inner_split [Add T] (L R : matrix T σ) (i : Nat) :
    ∀ (l : List Nat) (s : σ) (d : buf T),
      l.foldl
        (fun st j => (liftSnd (basematrix T)).set st i j
          ((liftFst L).get st i j + (liftFst R).get st i j)) (s, d) =
      (s, l.foldl (fun d j => upd d i j (L.get s i j + R.get s i j)) d) := by
  intro l
  induction l with
  | nil => intro s d; rfl
  | cons j₀ t ih =>
    intro s d
    simp only [List.foldl_cons]
    exact ih s _

theorem matadd_outer_split [Add T] (L R : matrix T σ) (n : Nat) :
    ∀ (rl : List Nat) (s : σ) (d : buf T),
      rl.foldl
        (fun st i => (List.range n).foldl
          (fun st j => (liftSnd (basematrix T)).set st i j
            ((liftFst L).get st i j + (liftFst R).get st i j)) st) (s, d) =
      (s, rl.foldl
        (fun d i => (List.range n).foldl
          (fun d j => upd d i j (L.get s i j + R.get s i j)) d) d) := by
  intro rl
  induction rl with
  | nil => intro s d; rfl
  | cons i₀ t ih =>
    intro s d
    simp only [List.foldl_cons]
    rw [matadd_inner_split]
    exact ih s _

theorem matadd_split [Add T] (L R : matrix T σ) (m n : Nat) (s : σ)
    (d : buf T) :
    matadd (liftFst L) (liftFst R) (liftSnd (basematrix T)) m n (s, d) =
      (s, tab2 (fun i j => L.get s i j + R.get s i j) m n d) := by
  rw [matadd, tab2]
  exact matadd_outer_split L R n (List.range m) s d

theorem matrixEq_true_iff [DecidableEq T]
    (a b : matrix T σ) (m n : Nat) (s : σ) :
    matrixEq a b m n s = true ↔
      ∀ i, i < m → ∀ j, j < n → a.get s i j = b.get s i j := by
  simp [matrixEq, List.all_eq_true, List.mem_range]

theorem cmppred_true_iff
    (a b : matrix T σ) (pred : T → T → Bool) (m n : Nat) (s : σ) :
    cmppred a b pred m n s = true ↔
      ∀ i, i < m → ∀ j, j < n → pred (a.get s i j) (b.get s i j) = true := by
  simp [cmppred, List.all_eq_true, List.mem_range]

theorem csum_congr {σ₁ σ₂ : Type} [Zero T] [Add T] [Mul T]
    (L₁ R₁ : matrix T σ₁) (L₂ R₂ : matrix T σ₂) (s₁ : σ₁) (s₂ : σ₂)
    (i j n : Nat)
    (hL : ∀ k, k < n → L₁.get s₁ i k = L₂.get s₂ i k)
    (hR : ∀ k, k < n → R₁.get s₁ k j = R₂.get s₂ k j) :
    ∀ kk, kk ≤ n → csum L₁ R₁ s₁ i j kk = csum L₂ R₂ s₂ i j kk := by
  intro kk
  induction kk with
  | zero => intro _; rfl
  | succ k ih =>
    intro hk
    rw [csum, csum, ih (by omega), hL k (by omega), hR k (by omega)]

theorem det_succ_succ [Zero T] [Add T] [Sub T] [Mul T]
    (n : Nat) (mat : matrix T σ) (s : σ) :
    det (n + 2) mat s =
      (((List.range (n + 2)).foldl
        (fun acp j =>
          let sd := det (n + 1) (submatrix mat (n + 2) (n + 2) 1 (j + 1)) s
          (if acp.2 then acp.1 + mat.get s 0 j * sd
           else acp.1 - mat.get s 0 j * sd, !acp.2))
        ((0 : T), true))).1 := rfl

theorem det_congr {σ₁ σ₂ : Type} [Zero T] [Add T] [Sub T] [Mul T] :
    ∀ (n : Nat) (A : matrix T σ₁) (B : matrix T σ₂) (s₁ : σ₁) (s₂ : σ₂),
      (∀ i j, i < n → j < n → A.get s₁ i j = B.get s₂ i j) →
      det n A s₁ = det n B s₂ := by
  intro n
  induction n using Nat.strong_induction_on with
  | _ n ih =>
    match n with
    | 0 => intro A B s₁ s₂ _; rfl
    | 1 => intro A B s₁ s₂ h; exact h 0 0 one_pos one_pos
    | Nat.succ (Nat.succ n) =>
      intro A B s₁ s₂ h
      rw [det_succ_succ, det_succ_succ]
      have key : ∀ (acp : T × Bool) (j : Nat), j ∈ List.range (n + 2) →
          (let sd := det (n + 1) (submatrix A (n + 2) (n + 2) 1 (j + 1)) s₁
           ((if acp.2 then acp.1 + A.get s₁ 0 j * sd
             else acp.1 - A.get s₁ 0 j * sd, !acp.2) : T × Bool)) =
          (let sd := det (n + 1) (submatrix B (n + 2) (n + 2) 1 (j + 1)) s₂
           (if acp.2 then acp.1 + B.get s₂ 0 j * sd
            else acp.1 - B.get s₂ 0 j * sd, !acp.2)) := by
        intro acp j hj
        have hj2 : j < n + 2 := List.mem_range.mp hj
        have hsub : det (n + 1) (submatrix A (n + 2) (n + 2) 1 (j + 1)) s₁ =
            det (n + 1) (submatrix B (n + 2) (n + 2) 1 (j + 1)) s₂ := by
          apply ih (n + 1) (by omega)
          intro i' j' hi' hj'
          show A.get s₁ ((i' + 1) % (n + 2)) ((j' + (j + 1)) % (n + 2)) =
            B.get s₂ ((i' + 1) % (n + 2)) ((j' + (j + 1)) % (n + 2))
          exact h _ _ (Nat.mod_lt _ (by omega)) (Nat.mod_lt _ (by omega))
        simp only [hsub, h 0 j (by omega) hj2]
      exact congrArg Prod.fst
        (foldl_congr_mem (List.range (n + 2)) _ _ ((0 : T), true) key)

theorem matadd_alias_row [Add T] (b : buf T) (i : Nat) :
    ∀ (l : List Nat), l.Nodup → ∀ (d : buf T),
      (∀ x y, ¬(x = i ∧ y ∈ l) →
        (l.foldl (fun d j => upd d i j (d i j + b i j)) d) x y = d x y) ∧
      (∀ y ∈ l,
        (l.foldl (fun d j => upd d i j (d i j + b i j)) d) i y =
          d i y + b i y) := by
  intro l
  induction l with
  | nil => intro _ d; exact ⟨fun x y _ => rfl, fun y hy => absurd hy (by simp)⟩
  | cons j₀ t ih =>
    intro hnd d
    have hj₀t : j₀ ∉ t := (List.nodup_cons.mp hnd).1
    have ihd := ih (List.nodup_cons.mp hnd).2 (upd d i j₀ (d i j₀ + b i j₀))
    simp only [List.foldl_cons]
    constructor
    · intro x y hxy
      have h1 : ¬(x = i ∧ y ∈ t) := fun ⟨hx, hy⟩ =>
        hxy ⟨hx, List.mem_cons.mpr (Or.inr hy)⟩
      have h2 : ¬(x = i ∧ y = j₀) := fun ⟨hx, hy⟩ =>
        hxy ⟨hx, List.mem_cons.mpr (Or.inl hy)⟩
      rw [ihd.1 x y h1, upd_other _ _ _ _ _ _ h2]
    · intro y hy
      rcases List.mem_cons.mp hy with hy | hy
      · subst hy
        rw [ihd.1 i y (fun hc => hj₀t hc.2), upd_same]
      · have hyj₀ : y ≠ j₀ := fun hc => hj₀t (hc ▸ hy)
        rw [ihd.2 y hy, upd_other _ _ _ _ _ _ (fun hc => hyj₀ hc.2)]

theorem matadd_alias_all [Add T] (b : buf T) (n : Nat) :
    ∀ (rl : List Nat), rl.Nodup → ∀ (d : buf T),
      (∀ x y, ¬(x ∈ rl ∧ y < n) →
        (rl.foldl
          (fun d i => (List.range n).foldl
            (fun d j => upd d i j (d i j + b i j)) d) d) x y = d x y) ∧
      (∀ x ∈ rl, ∀ y, y < n →
        (rl.foldl
          (fun d i => (List.range n).foldl
            (fun d j => upd d i j (d i j + b i j)) d) d) x y =
          d x y + b x y) := by
  intro rl
  induction rl with
  | nil => intro _ d; exact ⟨fun x y _ => rfl, fun x hx => absurd hx (by simp)⟩
  | cons i₀ t ih =>
    intro hnd d
    have hi₀t : i₀ ∉ t := (List.nodup_cons.mp hnd).1
    have hrow := matadd_alias_row b i₀ (List.range n) (List.nodup_range n) d
    have ihd := ih (List.nodup_cons.mp hnd).2
      ((List.range n).foldl (fun d j => upd d i₀ j (d i₀ j + b i₀ j)) d)
    simp only [List.foldl_cons]
    constructor
    · intro x y hxy
      have h1 : ¬(x ∈ t ∧ y < n) := fun ⟨hx, hy⟩ =>
        hxy ⟨List.mem_cons.mpr (Or.inr hx), hy⟩
      have h2 : ¬(x = i₀ ∧ y ∈ List.range n) := fun ⟨hx, hy⟩ =>
        hxy ⟨List.mem_cons.mpr (Or.inl hx), List.mem_range.mp hy⟩
      rw [ihd.1 x y h1, hrow.1 x y h2]
    · intro x hx y hy
      rcases List.mem_cons.mp hx with hx | hx
      · subst hx
        rw [ihd.1 x y (fun hc => hi₀t hc.1),
          hrow.2 y (List.mem_range.mpr hy)]
      · have hxi₀ : x ≠ i₀ := fun hc => hi₀t (hc ▸ hx)
        rw [ihd.2 x hx y hy, hrow.1 x y (fun hc => hxi₀ hc.1)]

theorem matadd_alias_split [Add T] (n : Nat) :
    ∀ (rl : List Nat) (a b : buf T),
      rl.foldl
        (fun st i => (List.range n).foldl
          (fun st j => (liftFst (basematrix T)).set st i j
            ((liftFst (basematrix T)).get st i j +
              (liftSnd (basematrix T)).get st i j)) st)
        ((a, b) : buf T × buf T) =
      (rl.foldl
        (fun d i => (List.range n).foldl
          (fun d j => upd d i j (d i j + b i j)) d) a, b) := by
  intro rl
  have inner : ∀ (l : List Nat) (i : Nat) (a b : buf T),
      l.foldl
        (fun st j => (liftFst (basematrix T)).set st i j
          ((liftFst (basematrix T)).get st i j +
            (liftSnd (basematrix T)).get st i j)) ((a, b) : buf T × buf T) =
      (l.foldl (fun d j => upd d i j (d i j + b i j)) a, b) := by
    intro l
    induction l with
    | nil => intro i a b; rfl
    | cons j₀ t ih =>
      intro i a b
      simp only [List.foldl_cons]
      exact ih i _ b
  induction rl with
  | nil => intro a b; rfl
  | cons i₀ t ih =>
    intro a b
    simp only [List.foldl_cons]
    rw [inner]
    exact ih _ b

theorem mulRun_apply (a b d : buf ℤ) (m n o : Nat) (i j : Nat) :
    mulRun a b d m n o i j =
      if i < m ∧ j < o then ∑ k ∈ Finset.range n, a i k * b k j
      else d i j := by
  rw [mulRun, matmul_split]
  show tab2 _ m o d i j = _
  rw [tab2_apply]
  by_cases h : i < m ∧ j < o
  · rw [if_pos h, if_pos h, csum_eq_sum]
    rfl
  · rw [if_neg h, if_neg h]

end lemmas

section claims

/-- C1: the spec claims `det` performs first-row Laplace expansion with
minors realized as wraparound views, and concludes `det(mat)` equals the
mathematical determinant.  The wraparound view with offset `(1, j + 1)`
cyclically rotates the columns of the true minor, which flips the sign of
the odd-column cofactors whenever `n` is odd: on the 3×3 matrix
`[[0,1,0],[1,0,0],[0,0,1]]` the code computes `1` while the mathematical
determinant is `-1`. -/
theorem C1_det_wraparound_deviates :
    det 3 (basematrix ℤ) exA = 1 ∧ (toSquare exA 3).det = -1 := by
  constructor
  · rfl
  · rw [toSquare, Matrix.det_fin_three]
    norm_num [exA, Matrix.of_apply]

/-- C2 counterexample: on a concrete input, `inverse` returns `false`,
which under the declared convention (`@return true if src is singular`)
does not signal the singular case — contradicting the claim that the
result reports failure. -/
theorem C2_inverse_reports_nonsingular :
    ¬((inverse (liftFst (basematrix ℤ)) (liftSnd (basematrix ℤ)) 2
      ((exd, exz) : buf ℤ × buf ℤ)).1 = true) := by
  decide

/-- C2 (amended): `inverse(src, dest)` always returns `false` — which
under the declared convention signals the non-singular case — and mutates
neither `dest` nor `src` (the store is returned unchanged). -/
theorem C2_inverse_stub {T σ : Type} (src dest : matrix T σ) (n : Nat)
    (s : σ) :
    (inverse src dest n s).1 = false ∧ (inverse src dest n s).2 = s :=
  ⟨rfl, rfl⟩

/-- C3: a view with offset `(oi, oj)` over an `M×N` dense parent reads, at
any valid index `(i, j)` of its own `sm×sn` extents, the parent cell
`((i + oi) % M, (j + oj) % N)`; setting through the view stores the value
at exactly that parent cell and leaves every other parent cell
unchanged. -/
theorem C3_submatrix_delegation {T : Type} (M N oi oj sm sn i j : Nat)
    (d : buf T) (v : T) (hi : i < sm) (hj : j < sn) :
    (submatrix (basematrix T) M N oi oj).get d i j =
      d ((i + oi) % M) ((j + oj) % N) ∧
    (submatrix (basematrix T) M N oi oj).set d i j v
      ((i + oi) % M) ((j + oj) % N) = v ∧
    (∀ a b, ¬(a = (i + oi) % M ∧ b = (j + oj) % N) →
      (submatrix (basematrix T) M N oi oj).set d i j v a b = d a b) :=
  ⟨rfl, upd_same d _ _ v, fun a b h => upd_other d _ _ v a b h⟩

/-- C3 witness: a 1×1 view with offset `(1, 2)` over a 3×3 dense parent
delegates its corner to parent cell `(1, 2)`. -/
theorem C3_submatrix_delegation_witness :
    0 < 1 ∧ 0 < 1 ∧
    ((submatrix (basematrix ℤ) 3 3 1 2).get exd 0 0 =
      exd ((0 + 1) % 3) ((0 + 2) % 3) ∧
    (submatrix (basematrix ℤ) 3 3 1 2).set exd 0 0 42
      ((0 + 1) % 3) ((0 + 2) % 3) = 42 ∧
    (∀ a b, ¬(a = (0 + 1) % 3 ∧ b = (0 + 2) % 3) →
      (submatrix (basematrix ℤ) 3 3 1 2).set exd 0 0 42 a b = exd a b)) :=
  ⟨by decide, by decide,
    C3_submatrix_delegation 3 3 1 2 1 1 0 0 exd 42 (by decide) (by decide)⟩

/-- C4: `matmul` run with `left`/`right` as arbitrary capability instances
over a store `s` and a fresh dense destination: the input store is left
unmodified, every valid destination cell holds the dot product
`∑ k < n, left[i][k] * right[k][j]` accumulated from a zero-initialized
accumulator, and no destination cell outside the `m×o` extents is
written. -/
theorem C4_matmul_spec {T σ : Type} [NonUnitalNonAssocSemiring T]
    (left right : matrix T σ) (s : σ) (d : buf T) (m n o : Nat) :
    (matmul (liftFst left) (liftFst right) (liftSnd (basematrix T)) m n o
      (s, d)).1 = s ∧
    (∀ i, i < m → ∀ j, j < o →
      (matmul (liftFst left) (liftFst right) (liftSnd (basematrix T)) m n o
        (s, d)).2 i j =
        ∑ k ∈ Finset.range n, left.get s i k * right.get s k j) ∧
    (∀ i j, ¬(i < m ∧ j < o) →
      (matmul (liftFst left) (liftFst right) (liftSnd (basematrix T)) m n o
        (s, d)).2 i j = d i j) := by
  rw [matmul_split]
  refine ⟨rfl, ?_, ?_⟩
  · intro i hi j hj
    show tab2 _ m o d i j = _
    rw [tab2_in _ m o d hi hj, csum_eq_sum]
  · intro i j h
    show tab2 _ m o d i j = d i j
    rw [tab2_apply, if_neg h]

/-- C4 witness: a concrete 1×2 by 2×1 product writes the expected dot
product at cell `(0, 0)`. -/
theorem C4_matmul_spec_witness :
    0 < 1 ∧ 0 < 1 ∧
    (matmul (liftFst (basematrix ℤ)) (liftFst (basematrix ℤ))
      (liftSnd (basematrix ℤ)) 1 2 1 ((exd, exz) : buf ℤ × buf ℤ)).2 0 0 =
      ∑ k ∈ Finset.range 2,
        (basematrix ℤ).get exd 0 k * (basematrix ℤ).get exd k 0 :=
  ⟨by decide, by decide,
    (C4_matmul_spec (basematrix ℤ) (basematrix ℤ) exd exz 1 2 1).2.1
      0 (by decide) 0 (by decide)⟩

/-- C5: the algorithms `matrixEq` (`operator==`), `cmppred`, `det`,
`matmul` and `matadd` depend only on the `get`-observable entries of their
argument matrices: for capability instances over different stores (dense
or view) whose entries agree at every valid index, each algorithm produces
identical results. -/
theorem C5_representation_independence {T : Type}
    [Zero T] [Add T] [Sub T] [Mul T] [DecidableEq T] {σ₁ σ₂ : Type}
    (A₁ B₁ C₁ D₁ : matrix T σ₁) (A₂ B₂ C₂ D₂ : matrix T σ₂)
    (s₁ : σ₁) (s₂ : σ₂) (pred : T → T → Bool) (m n o nn : Nat) (d : buf T)
    (hA : ∀ i, i < m → ∀ j, j < n → A₁.get s₁ i j = A₂.get s₂ i j)
    (hB : ∀ i, i < n → ∀ j, j < o → B₁.get s₁ i j = B₂.get s₂ i j)
    (hC : ∀ i, i < m → ∀ j, j < n → C₁.get s₁ i j = C₂.get s₂ i j)
    (hD : ∀ i, i < nn → ∀ j, j < nn → D₁.get s₁ i j = D₂.get s₂ i j) :
    matrixEq A₁ C₁ m n s₁ = matrixEq A₂ C₂ m n s₂ ∧
    cmppred A₁ C₁ pred m n s₁ = cmppred A₂ C₂ pred m n s₂ ∧
    det nn D₁ s₁ = det nn D₂ s₂ ∧
    (∀ i, i < m → ∀ j, j < o →
      (matmul (liftFst A₁) (liftFst B₁) (liftSnd (basematrix T)) m n o
        (s₁, d)).2 i j =
      (matmul (liftFst A₂) (liftFst B₂) (liftSnd (basematrix T)) m n o
        (s₂, d)).2 i j) ∧
    (∀ i, i < m → ∀ j, j < n →
      (matadd (liftFst A₁) (liftFst C₁) (liftSnd (basematrix T)) m n
        (s₁, d)).2 i j =
      (matadd (liftFst A₂) (liftFst C₂) (liftSnd (basematrix T)) m n
        (s₂, d)).2 i j) := by
  refine ⟨?_, ?_, ?_, ?_, ?_⟩
  · have h1 : matrixEq A₁ C₁ m n s₁ = true ↔
        matrixEq A₂ C₂ m n s₂ = true := by
      rw [matrixEq_true_iff, matrixEq_true_iff]
      constructor
      · intro H i hi j hj
        rw [← hA i hi j hj, ← hC i hi j hj]
        exact H i hi j hj
      · intro H i hi j hj
        rw [hA i hi j hj, hC i hi j hj]
        exact H i hi j hj
    cases hx : matrixEq A₁ C₁ m n s₁ <;>
      cases hy : matrixEq A₂ C₂ m n s₂ <;> simp_all
  · have h1 : cmppred A₁ C₁ pred m n s₁ = true ↔
        cmppred A₂ C₂ pred m n s₂ = true := by
      rw [cmppred_true_iff, cmppred_true_iff]
      constructor
      · intro H i hi j hj
        rw [← hA i hi j hj, ← hC i hi j hj]
        exact H i hi j hj
      · intro H i hi j hj
        rw [hA i hi j hj, hC i hi j hj]
        exact H i hi j hj
    cases hx : cmppred A₁ C₁ pred m n s₁ <;>
      cases hy : cmppred A₂ C₂ pred m n s₂ <;> simp_all
  · exact det_congr nn D₁ D₂ s₁ s₂ (fun i j hi hj => hD i hi j hj)
  · intro i hi j hj
    rw [matmul_split, matmul_split]
    show tab2 _ m o d i j = tab2 _ m o d i j
    rw [tab2_in _ m o d hi hj, tab2_in _ m o d hi hj]
    exact csum_congr A₁ B₁ A₂ B₂ s₁ s₂ i j n
      (fun k hk => hA i hi k hk) (fun k hk => hB k hk j hj) n le_rfl
  · intro i hi j hj
    rw [matadd_split, matadd_split]
    show tab2 _ m n d i j = tab2 _ m n d i j
    rw [tab2_in _ m n d hi hj, tab2_in _ m n d hi hj,
      hA i hi j hj, hC i hi j hj]

/-- C5 witness: a dense 1×1 matrix holding `5` and a wraparound view
exposing the `5` stored at cell `(1, 1)` of a 2×2 parent agree entrywise,
and every algorithm produces identical results on them. -/
theorem C5_representation_independence_witness :
    (∀ i, i < 1 → ∀ j, j < 1 →
      (basematrix ℤ).get exFive i j =
      (submatrix (basematrix ℤ) 2 2 1 1).get exP i j) ∧
    (matrixEq (basematrix ℤ) (basematrix ℤ) 1 1 exFive =
      matrixEq (submatrix (basematrix ℤ) 2 2 1 1)
        (submatrix (basematrix ℤ) 2 2 1 1) 1 1 exP ∧
    cmppred (basematrix ℤ) (basematrix ℤ) (fun x y => decide (x ≤ y))
        1 1 exFive =
      cmppred (submatrix (basematrix ℤ) 2 2 1 1)
        (submatrix (basematrix ℤ) 2 2 1 1) (fun x y => decide (x ≤ y))
        1 1 exP ∧
    det 1 (basematrix ℤ) exFive =
      det 1 (submatrix (basematrix ℤ) 2 2 1 1) exP ∧
    (∀ i, i < 1 → ∀ j, j < 1 →
      (matmul (liftFst (basematrix ℤ)) (liftFst (basematrix ℤ))
        (liftSnd (basematrix ℤ)) 1 1 1
        ((exFive, exz) : buf ℤ × buf ℤ)).2 i j =
      (matmul (liftFst (submatrix (basematrix ℤ) 2 2 1 1))
        (liftFst (submatrix (basematrix ℤ) 2 2 1 1))
        (liftSnd (basematrix ℤ)) 1 1 1
        ((exP, exz) : buf ℤ × buf ℤ)).2 i j) ∧
    (∀ i, i < 1 → ∀ j, j < 1 →
      (matadd (liftFst (basematrix ℤ)) (liftFst (basematrix ℤ))
        (liftSnd (basematrix ℤ)) 1 1
        ((exFive, exz) : buf ℤ × buf ℤ)).2 i j =
      (matadd (liftFst (submatrix (basematrix ℤ) 2 2 1 1))
        (liftFst (submatrix (basematrix ℤ) 2 2 1 1))
        (liftSnd (basematrix ℤ)) 1 1
        ((exP, exz) : buf ℤ × buf ℤ)).2 i j)) :=
  ⟨by decide,
    C5_representation_independence (basematrix ℤ) (basematrix ℤ)
      (basematrix ℤ) (basematrix ℤ)
      (submatrix (basematrix ℤ) 2 2 1 1) (submatrix (basematrix ℤ) 2 2 1 1)
      (submatrix (basematrix ℤ) 2 2 1 1) (submatrix (basematrix ℤ) 2 2 1 1)
      exFive exP (fun x y => decide (x ≤ y)) 1 1 1 1 exz
      (by decide) (by decide) (by decide) (by decide)⟩

/-- C6: `matmul` on dense integer matrices is associative element-wise on
every valid cell: `(A*B)*C` agrees with `A*(B*C)` on the `m×p` result, for
any `m×n`, `n×o`, `o×p` extents, under exact integer arithmetic. -/
theorem C6_matmul_assoc (a b c d₀ d₁ d₂ d₃ : buf ℤ) (m n o p : Nat) :
    ∀ i, i < m → ∀ j, j < p →
      mulRun (mulRun a b d₀ m n o) c d₁ m o p i j =
      mulRun a (mulRun b c d₂ n o p) d₃ m n p i j := by
  intro i hi j hj
  rw [mulRun_apply, mulRun_apply, if_pos ⟨hi, hj⟩, if_pos ⟨hi, hj⟩]
  have hL : ∀ l ∈ Finset.range o,
      mulRun a b d₀ m n o i l * c l j =
      (∑ k ∈ Finset.range n, a i k * b k l) * c l j := by
    intro l hl
    rw [mulRun_apply, if_pos ⟨hi, Finset.mem_range.mp hl⟩]
  have hR : ∀ k ∈ Finset.range n,
      a i k * mulRun b c d₂ n o p k j =
      a i k * ∑ l ∈ Finset.range o, b k l * c l j := by
    intro k hk
    rw [mulRun_apply, if_pos ⟨Finset.mem_range.mp hk, hj⟩]
  rw [Finset.sum_congr rfl hL, Finset.sum_congr rfl hR]
  simp only [Finset.sum_mul, Finset.mul_sum, mul_assoc]
  exact Finset.sum_comm

/-- C6 witness: associativity at concrete 1×1 matrices. -/
theorem C6_matmul_assoc_witness :
    0 < 1 ∧ 0 < 1 ∧
    mulRun (mulRun exd exd exz 1 1 1) exd exz 1 1 1 0 0 =
      mulRun exd (mulRun exd exd exz 1 1 1) exz 1 1 1 0 0 :=
  ⟨by decide, by decide,
    C6_matmul_assoc exd exd exd exz exz exz exz 1 1 1 1 0 (by decide)
      0 (by decide)⟩

/-- C7: building a view with zero offset and identical extents over an
`m×n` dense parent, then building a dense matrix from that view, yields a
dense matrix agreeing with the parent at every valid index. -/
theorem C7_roundtrip {T : Type} (m n : Nat) (d init : buf T) (i j : Nat)
    (hi : i < m) (hj : j < n) :
    basematrixOfSub (submatrix (basematrix T) m n 0 0) d m n init i j =
      d i j := by
  rw [basematrixOfSub, tab2_in _ m n init hi hj]
  show d ((i + 0) % m) ((j + 0) % n) = d i j
  rw [Nat.add_zero, Nat.add_zero, Nat.mod_eq_of_lt hi, Nat.mod_eq_of_lt hj]

/-- C7 witness: a 2×2 round-trip reproduces the parent entry `(1, 1)`. -/
theorem C7_roundtrip_witness :
    1 < 2 ∧ 1 < 2 ∧
    basematrixOfSub (submatrix (basematrix ℤ) 2 2 0 0) exd 2 2 exz 1 1 =
      exd 1 1 :=
  ⟨by decide, by decide,
    C7_roundtrip 2 2 exd exz 1 1 (by decide) (by decide)⟩

/-- C8: `operator==` returns `true` iff every valid cell pair is equal,
and `cmppred` returns `true` iff the predicate holds at every valid cell
pair. -/
theorem C8_eq_and_cmppred {T σ : Type} [DecidableEq T]
    (A B : matrix T σ) (pred : T → T → Bool) (m n : Nat) (s : σ) :
    (matrixEq A B m n s = true ↔
      ∀ i, i < m → ∀ j, j < n → A.get s i j = B.get s i j) ∧
    (cmppred A B pred m n s = true ↔
      ∀ i, i < m → ∀ j, j < n →
        pred (A.get s i j) (B.get s i j) = true) :=
  ⟨matrixEq_true_iff A B m n s, cmppred_true_iff A B pred m n s⟩

/-- C9: the determinant base case — `det` of a 1×1 matrix `[[k]]` returns
`k`; in general `det 1` returns `get(0, 0)` of any capability instance. -/
theorem C9_det_base {T : Type} [Zero T] [Add T] [Sub T] [Mul T] :
    (∀ k : T, det 1 (basematrix T) (fun _ _ => k) = k) ∧
    (∀ (σ : Type) (A : matrix T σ) (s : σ), det 1 A s = A.get s 0 0) :=
  ⟨fun _ => rfl, fun _ _ _ => rfl⟩

/-- C10: `matadd(left, right, dest)` with `dest` the very same dense
matrix object as `left`: afterwards every valid cell of that object holds
the sum of the original left entry and the right entry, and the right
matrix is untouched. -/
theorem C10_matadd_alias {T : Type} [Add T] (a b : buf T) (m n : Nat) :
    (∀ i, i < m → ∀ j, j < n →
      (matadd (liftFst (basematrix T)) (liftSnd (basematrix T))
        (liftFst (basematrix T)) m n (a, b)).1 i j = a i j + b i j) ∧
    (matadd (liftFst (basematrix T)) (liftSnd (basematrix T))
      (liftFst (basematrix T)) m n (a, b)).2 = b := by
  have hsplit : matadd (liftFst (basematrix T)) (liftSnd (basematrix T))
      (liftFst (basematrix T)) m n (a, b) =
      ((List.range m).foldl
        (fun d i => (List.range n).foldl
          (fun d j => upd d i j (d i j + b i j)) d) a, b) := by
    rw [matadd]
    exact matadd_alias_split n (List.range m) a b
  rw [hsplit]
  constructor
  · intro i hi j hj
    exact (matadd_alias_all b n (List.range m) (List.nodup_range m) a).2
      i (List.mem_range.mpr hi) j hj
  · rfl

/-- C10 witness: an aliased 2×2 in-place add holds the correct sum at cell
`(1, 1)`. -/
theorem C10_matadd_alias_witness :
    1 < 2 ∧ 1 < 2 ∧
    (matadd (liftFst (basematrix ℤ)) (liftSnd (basematrix ℤ))
      (liftFst (basematrix ℤ)) 2 2 ((exd, exd) : buf ℤ × buf ℤ)).1 1 1 =
      exd 1 1 + exd 1 1 :=
  ⟨by decide, by decide,
    (C10_matadd_alias exd exd 2 2).1 1 (by decide) 1 (by decide)⟩

end claims

end gmat
